import Mathlib

/-!
# Verification of `reversible-rs`

A shallow embedding of the two source modules of the crate:

* `src/context.rs` — the `Trail` (undo log, checkpoint boundaries, logical clock);
* `src/reversible.rs` — the `Reversible<T>` cell built on top of it.

Modelling choices, faithful to the source:

* The Rust `Vec`s `trail` and `limit` are modelled as Lean lists whose **head is the
  top of the stack** (`Vec::push` = cons, `Vec::pop` = tail).  A boundary value `b`
  stored in `limit` is a length of the log counted from the **bottom**, exactly as in
  the source; "the part of the log above boundary `b`" is therefore
  `trail.take (trail.length - b)`.
* A boxed restore closure `Box::new(move || dst.set(val))` pushed by
  `Reversible::trail` is modelled as the pair `(i, val)` where `i` identifies the
  `Rc<Cell<T>>` storage it writes to.  The shared storage of all cells bound to one
  trail (`Rc<Cell<T>>` in Rust) is modelled as an arena `cells : List (Reversible α)`
  carried alongside the trail fields; index `i` plays the role of the `Rc` pointer.
* `usize` arithmetic: the counters only grow by `+1` per operation, far from
  overflow; they are modelled as `Nat`.
-/

set_option maxHeartbeats 1000000
set_option maxRecDepth 8000
set_option linter.unusedSectionVars false

/-- The `Reversible<'a, T>` struct of `src/reversible.rs` (fields `clock` and `value`;
the `trail: Rc<RefCell<Trail>>` field is the ambient shared state, see `Trail`). -/
structure Reversible (α : Type) where
  clock : Nat
  value : α
deriving DecidableEq, Repr

/-- The `Trail` struct of `src/context.rs` together with the shared cell storage.
`clock`, `trail` (the undo log) and `limit` (the checkpoint boundaries) are the three
Rust fields; `cells` is the arena of `Rc<Cell<T>>` storages of every `Reversible`
bound to this trail, which the restore closures mutate. -/
structure Trail (α : Type) where
  clock : Nat
  trail : List (Nat × α)
  limit : List Nat
  cells : List (Reversible α)
deriving DecidableEq, Repr

variable {α : Type} [DecidableEq α]

namespace Trail

/-- `Trail::new()` — clock 0, empty log, no boundary (and no cell exists yet). -/
def new : Trail α := { clock := 0, trail := [], limit := [], cells := [] }

/-- `Trail::push_on_trail(entry)` — `self.trail.push(entry)`. -/
def push_on_trail (s : Trail α) (entry : Nat × α) : Trail α :=
  { s with trail := entry :: s.trail }

/-- `Trail::push()` — `self.clock += 1; self.limit.push(self.trail.len())`. -/
def push (s : Trail α) : Trail α :=
  { s with clock := s.clock + 1, limit := s.trail.length :: s.limit }

/-- `Trail::level()` — `self.limit.len()`. -/
def level (s : Trail α) : Nat := s.limit.length

end Trail

/-- `dst.set(v)` where `dst` is the shared storage of cell `i`: update the value of
cell `i`, leave its stamped clock alone (out-of-range `i` cannot arise from the API,
where an `Rc` always points to live storage; it is a no-op here). -/
def setCellValue (cells : List (Reversible α)) (i : Nat) (v : α) : List (Reversible α) :=
  match cells[i]? with
  | some c => cells.set i { c with value := v }
  | none => cells

/-- Running one restore closure `move || dst.set(val)` from the log. -/
def execEntry (cells : List (Reversible α)) (e : Nat × α) : List (Reversible α) :=
  setCellValue cells e.1 e.2

/-- The `while self.trail.len() > sz { self.trail.pop().unwrap()(); }` loop of
`Trail::pop`: repeatedly remove the newest log entry and execute it, until the log
length is back to `sz`.  Returns the updated cell storage and the remaining log. -/
def unwind : List (Reversible α) → List (Nat × α) → Nat → List (Reversible α) × List (Nat × α)
  | cells, [], _ => (cells, [])
  | cells, e :: rest, sz =>
    if (e :: rest).length > sz then unwind (execEntry cells e) rest sz
    else (cells, e :: rest)

namespace Trail

/-- `Trail::pop()` — `let sz = self.limit.pop().unwrap_or(0); while trail.len() > sz
{ trail.pop().unwrap()() }; self.clock += 1`. -/
def pop (s : Trail α) : Trail α :=
  let sz := s.limit.headD 0
  let r := unwind s.cells s.trail sz
  { clock := s.clock + 1, trail := r.2, limit := s.limit.tail, cells := r.1 }

/-- `Trail::pop_until(level)` — `while self.level() > level { self.pop() }`. -/
def pop_until (s : Trail α) (level : Nat) : Trail α :=
  if s.level > level then (s.pop).pop_until level else s
termination_by s.level
decreasing_by
  have h : (Trail.pop s).limit = s.limit.tail := rfl
  simp only [Trail.level, h, List.length_tail] at *
  omega

/-- `Trail::pop_all()` — `self.pop_until(0)`. -/
def pop_all (s : Trail α) : Trail α := s.pop_until 0

/-- `n` consecutive `pop()` calls.  Structurally recursive companion of the
`while` loop of `pop_until` (see `Trail.pop_until_eq_iter`), so that concrete runs
reduce inside the kernel. -/
def popIter (s : Trail α) : Nat → Trail α
  | 0 => s
  | n + 1 => (s.pop).popIter n

end Trail

namespace Reversible

/-- `Reversible::new(trail, initial)` — snapshot the trail clock, allocate fresh
shared storage holding `initial`.  Returns the new system state and the index of the
fresh storage (the `Rc` handle). -/
def new (s : Trail α) (initial : α) : Trail α × Nat :=
  ({ s with cells := s.cells ++ [{ clock := s.clock, value := initial }] }, s.cells.length)

/-- The private `Reversible::trail(&mut self)` of cell `i`: if the trail clock differs
from the cell's stamped clock, restamp the cell and push the restore closure
`move || dst.set(val)` (modelled as `(i, current value)`) on the trail. -/
def trail (s : Trail α) (i : Nat) : Trail α :=
  match s.cells[i]? with
  | none => s
  | some c =>
    if s.clock ≠ c.clock then
      Trail.push_on_trail { s with cells := s.cells.set i { c with clock := s.clock } } (i, c.value)
    else s

/-- `Reversible::get_value()` of cell `i` — `self.value.get()` (`none` only for an
index that denotes no cell, which cannot arise through the API). -/
def get_value (s : Trail α) (i : Nat) : Option α :=
  s.cells[i]?.map Reversible.value

/-- `Reversible::set_value(v)` of cell `i` — `if v != self.value.get() { self.trail();
self.value.set(v); } self.value.get()`.  Returns the updated system state and the
returned value. -/
def set_value (s : Trail α) (i : Nat) (v : α) : Trail α × Option α :=
  match s.cells[i]? with
  | none => (s, none)
  | some c =>
    let s1 := if v ≠ c.value then
        let st := Reversible.trail s i
        { st with cells := setCellValue st.cells i v }
      else s
    (s1, Reversible.get_value s1 i)

end Reversible

/-- One call of the public API: the trail methods of `src/context.rs` and the
`Reversible` methods of `src/reversible.rs`.  `register i v` is a raw
`Trail::push_on_trail` of an arbitrary cell-writing closure. -/
inductive Op (α : Type) where
  | push : Op α
  | pop : Op α
  | popUntil : Nat → Op α
  | popAll : Op α
  | newCell : α → Op α
  | setValue : Nat → α → Op α
  | register : Nat → α → Op α

/-- Interpret one API call on the system state. -/
def step (s : Trail α) : Op α → Trail α
  | .push => s.push
  | .pop => s.pop
  | .popUntil l => s.pop_until l
  | .popAll => s.pop_all
  | .newCell v => (Reversible.new s v).1
  | .setValue i v => (Reversible.set_value s i v).1
  | .register i v => s.push_on_trail (i, v)

/-- Run a sequence of API calls. -/
def run (s : Trail α) (ops : List (Op α)) : Trail α := ops.foldl step s

/-- The states reachable from `Trail::new()` through any sequence of public API
calls (including raw `push_on_trail` registrations). -/
inductive Reachable : Trail α → Prop
  | init : Reachable Trail.new
  | step {s : Trail α} : Reachable s → (op : Op α) → Reachable (step s op)

/-- The values held by the cell storages, in arena order. -/
def valuesOf (cells : List (Reversible α)) : List α := cells.map Reversible.value

/-- The effect of a list of restore closures on the cell values alone (the stamped
clocks are untouched by `dst.set(val)`): each entry overwrites one slot. -/
def applyValues (vs : List α) (es : List (Nat × α)) : List α :=
  es.foldl (fun vs e => vs.set e.1 e.2) vs

/-- Proof abbreviation (not part of the source): the state reached from `s` by
`push()` followed by a first value-changing `set_value` on cell `i` — whose pre-write
value was `v₀` — and any further writes leaving it at `w`.  The single registered
restore entry is `(i, v₀)`. -/
def midState (s : Trail α) (i : Nat) (v₀ w : α) : Trail α :=
  { clock := s.clock + 1
    trail := (i, v₀) :: s.trail
    limit := s.trail.length :: s.limit
    cells := s.cells.set i ⟨s.clock + 1, w⟩ }

/-- Ghost-instrumented reachability through the checkpoint/cell API (no raw
`push_on_trail`): alongside the state we carry, for each open checkpoint (newest
first), the snapshot of all cell values taken at the moment that checkpoint was
opened by `Trail::push`. -/
inductive GReach : Trail α → List (List α) → Prop
  | init : GReach Trail.new []
  | push {s : Trail α} {snaps} : GReach s snaps → GReach s.push (valuesOf s.cells :: snaps)
  | pop {s : Trail α} {snaps} : GReach s snaps → GReach s.pop snaps.tail
  | popUntil {s : Trail α} {snaps} (l : Nat) : GReach s snaps →
      GReach (s.pop_until l) (snaps.drop (s.level - l))
  | popAll {s : Trail α} {snaps} : GReach s snaps → GReach s.pop_all (snaps.drop s.level)
  | newCell {s : Trail α} {snaps} (v : α) : GReach s snaps → GReach (Reversible.new s v).1 snaps
  | setValue {s : Trail α} {snaps} (i : Nat) (v : α) : GReach s snaps →
      GReach (Reversible.set_value s i v).1 snaps

/-- Structural well-formedness of a trail state: the boundary stack is sorted (each
newer boundary at least every older one), every boundary is at most the log length,
and no cell's stamped clock is ahead of the trail clock. -/
structure WF (s : Trail α) : Prop where
  sorted : s.limit.Pairwise (· ≥ ·)
  le_len : ∀ b ∈ s.limit, b ≤ s.trail.length
  cells_clock : ∀ c ∈ s.cells, c.clock ≤ s.clock

/-- Every log entry writes to live cell storage. -/
def EV (s : Trail α) : Prop := ∀ e ∈ s.trail, e.1 < s.cells.length

/-- The ghost invariant tying a state to its checkpoint snapshots: for the `j`-th
open checkpoint (newest first, boundary `b`, snapshot `sn`), executing the part of
the log above `b` restores every cell that existed when the checkpoint was opened to
its snapshot value; and a cell stamped with the current clock has a pending restore
entry above every boundary. -/
structure SnapInv (s : Trail α) (snaps : List (List α)) : Prop where
  len_eq : snaps.length = s.limit.length
  snap_le : ∀ {j : Nat} {sn : List α}, snaps[j]? = some sn → sn.length ≤ s.cells.length
  restore : ∀ {j b : Nat} {sn : List α}, snaps[j]? = some sn → s.limit[j]? = some b →
      (valuesOf (List.foldl execEntry s.cells (s.trail.take (s.trail.length - b)))).take sn.length
        = sn
  clockreg : ∀ {j b i : Nat} {sn : List α} {c : Reversible α},
      snaps[j]? = some sn → s.limit[j]? = some b →
      i < sn.length → s.cells[i]? = some c → c.clock = s.clock →
      ∃ v, (i, v) ∈ s.trail.take (s.trail.length - b)

theorem Trail.pop_limit (s : Trail α) : (s.pop).limit = s.limit.tail := rfl

theorem Trail.pop_level (s : Trail α) : (s.pop).level = s.level - 1 := by
  simp [Trail.level, Trail.pop_limit]

/-- The `while self.level() > level` loop of `pop_until` performs exactly
`level() - level` pops. -/
theorem Trail.pop_until_eq_iter (s : Trail α) (l : Nat) :
    s.pop_until l = s.popIter (s.level - l) := by
  rw [Trail.pop_until]
  by_cases hc : s.level > l
  · rw [if_pos hc]
    rw [Trail.pop_until_eq_iter s.pop l, Trail.pop_level]
    have h1 : s.level - l = ((s.level - 1) - l) + 1 := by omega
    rw [h1, Trail.popIter]
  · rw [if_neg hc]
    have h0 : s.level - l = 0 := by omega
    rw [h0, Trail.popIter]
termination_by s.level
decreasing_by
  simp only [Trail.level, Trail.pop_limit, List.length_tail] at *
  omega

-- Sanity replay of the unit test `test_ok` of `src/reversible.rs`.
example :
    let t0 : Trail Nat := Trail.new
    let t1 := (Reversible.new t0 0).1
    let t2 := t1.push
    let t3 := (Reversible.set_value t2 0 1).1
    let t4 := t3.push
    let t5 := (Reversible.set_value t4 0 2).1
    let t6 := (Reversible.set_value t5 0 42).1
    let t7 := t6.pop
    let t8 := t7.pop
    t2.level = 1 ∧ Reversible.get_value t3 0 = some 1 ∧ t4.level = 2 ∧
      Reversible.get_value t6 0 = some 42 ∧
      Reversible.get_value t7 0 = some 1 ∧ t7.level = 1 ∧
      Reversible.get_value t8 0 = some 0 ∧ t8.level = 0 := by
  decide

-- Sanity replay of the unit test `test_str` of `src/reversible.rs` (values as tags).
example :
    let t0 : Trail Nat := Trail.new
    let t1 := (Reversible.new t0 10).1
    let t2 := t1.push
    let t3 := (Reversible.set_value t2 0 11).1
    let t4 := t3.push
    let t5 := (Reversible.set_value t4 0 12).1
    Reversible.get_value t5 0 = some 12 ∧
      Reversible.get_value t5.pop_all 0 = some 10 ∧ t5.pop_all.level = 0 := by
  simp only [Trail.pop_all, Trail.pop_until_eq_iter]
  decide

/-! ## Basic unfolding lemmas -/

theorem Trail.push_clock (s : Trail α) : (s.push).clock = s.clock + 1 := rfl

theorem Trail.push_trail (s : Trail α) : (s.push).trail = s.trail := rfl

theorem Trail.push_limit (s : Trail α) : (s.push).limit = s.trail.length :: s.limit := rfl

theorem Trail.push_cells (s : Trail α) : (s.push).cells = s.cells := rfl

theorem Trail.pop_clock (s : Trail α) : (s.pop).clock = s.clock + 1 := rfl

theorem Trail.pop_trail (s : Trail α) :
    (s.pop).trail = (unwind s.cells s.trail (s.limit.headD 0)).2 := rfl

theorem Trail.pop_cells (s : Trail α) :
    (s.pop).cells = (unwind s.cells s.trail (s.limit.headD 0)).1 := rfl

/-! ## The unwinding loop of `pop`, characterised by `take`/`drop`/`foldl` -/

theorem unwind_eq (cells : List (Reversible α)) (t : List (Nat × α)) (b : Nat)
    (h : b ≤ t.length) :
    unwind cells t b
      = (List.foldl execEntry cells (t.take (t.length - b)), t.drop (t.length - b)) := by
  induction t generalizing cells with
  | nil =>
    have hb : b = 0 := Nat.le_zero.mp h
    simp [unwind, hb]
  | cons e rest ih =>
    rw [unwind]
    by_cases hc : (e :: rest).length > b
    · rw [if_pos hc]
      have hb : b ≤ rest.length := by simp at hc; omega
      have h1 : (e :: rest).length - b = (rest.length - b) + 1 := by
        simp only [List.length_cons]; omega
      rw [ih (execEntry cells e) hb, h1]
      simp [List.foldl_cons]
    · rw [if_neg hc]
      have hb : b = (e :: rest).length := by
        simp only [List.length_cons] at hc h ⊢; omega
      simp [hb]

theorem Trail.pop_trail_eq (s : Trail α) (h : s.limit.headD 0 ≤ s.trail.length) :
    (s.pop).trail = s.trail.drop (s.trail.length - s.limit.headD 0) := by
  rw [Trail.pop_trail, unwind_eq _ _ _ h]

theorem Trail.pop_cells_eq (s : Trail α) (h : s.limit.headD 0 ≤ s.trail.length) :
    (s.pop).cells
      = List.foldl execEntry s.cells (s.trail.take (s.trail.length - s.limit.headD 0)) := by
  rw [Trail.pop_cells, unwind_eq _ _ _ h]

/-! ## Executing log entries: effect on the cell storage -/

theorem length_setCellValue (cells : List (Reversible α)) (i : Nat) (v : α) :
    (setCellValue cells i v).length = cells.length := by
  unfold setCellValue
  cases h : cells[i]? <;> simp

theorem length_execEntry (cells : List (Reversible α)) (e : Nat × α) :
    (execEntry cells e).length = cells.length := length_setCellValue ..

theorem length_foldl_execEntry (cells : List (Reversible α)) (es : List (Nat × α)) :
    (List.foldl execEntry cells es).length = cells.length := by
  induction es generalizing cells with
  | nil => rfl
  | cons e rest ih => rw [List.foldl_cons, ih, length_execEntry]

theorem clocks_setCellValue (cells : List (Reversible α)) (i : Nat) (v : α) :
    (setCellValue cells i v).map Reversible.clock = cells.map Reversible.clock := by
  unfold setCellValue
  cases h : cells[i]? with
  | none => rfl
  | some c =>
    rw [List.map_set]
    have hi : (cells.map Reversible.clock)[i]? = some c.clock := by
      rw [List.getElem?_map, h]; rfl
    exact List.ext_getElem? fun j => by
      by_cases hj : j = i
      · subst hj; rw [List.getElem?_set_self' ]; rw [hi]; rfl
      · rw [List.getElem?_set_ne (fun hh => hj hh.symm)]

theorem clocks_foldl_execEntry (cells : List (Reversible α)) (es : List (Nat × α)) :
    (List.foldl execEntry cells es).map Reversible.clock = cells.map Reversible.clock := by
  induction es generalizing cells with
  | nil => rfl
  | cons e rest ih => rw [List.foldl_cons, ih]; exact clocks_setCellValue ..

theorem valuesOf_setCellValue (cells : List (Reversible α)) (i : Nat) (v : α) :
    valuesOf (setCellValue cells i v) = (valuesOf cells).set i v := by
  unfold setCellValue valuesOf
  cases h : cells[i]? with
  | none =>
    have : cells.length ≤ i := by
      by_contra hlt
      exact absurd h (by simp [List.getElem?_eq_getElem (Nat.lt_of_not_le hlt)])
    rw [List.set_eq_of_length_le (by simpa using this)]
  | some c => rw [List.map_set]

theorem valuesOf_length (cells : List (Reversible α)) :
    (valuesOf cells).length = cells.length := List.length_map ..

theorem valuesOf_getElem? (cells : List (Reversible α)) (i : Nat) :
    (valuesOf cells)[i]? = cells[i]?.map Reversible.value := List.getElem?_map ..

/-! ## Value-level view of executing log entries -/

theorem applyValues_nil (vs : List α) : applyValues vs [] = vs := rfl

theorem applyValues_cons (vs : List α) (e : Nat × α) (es : List (Nat × α)) :
    applyValues vs (e :: es) = applyValues (vs.set e.1 e.2) es := rfl

theorem valuesOf_foldl_execEntry (cells : List (Reversible α)) (es : List (Nat × α)) :
    valuesOf (List.foldl execEntry cells es) = applyValues (valuesOf cells) es := by
  induction es generalizing cells with
  | nil => rfl
  | cons e rest ih =>
    rw [List.foldl_cons, ih, applyValues_cons, ← valuesOf_setCellValue]; rfl

theorem applyValues_length (vs : List α) (es : List (Nat × α)) :
    (applyValues vs es).length = vs.length := by
  induction es generalizing vs with
  | nil => rfl
  | cons e rest ih => rw [applyValues_cons, ih, List.length_set]

theorem applyValues_append_entries (vs : List α) (es fs : List (Nat × α)) :
    applyValues vs (es ++ fs) = applyValues (applyValues vs es) fs :=
  List.foldl_append ..

/-- Setting the same slot to the same value in two lists of equal length gives the
same element there. -/
theorem set_getElem?_eq_of_length {β : Type} {l₁ l₂ : List β} (h : l₂.length = l₁.length)
    (i : Nat) (a : β) : (l₂.set i a)[i]? = (l₁.set i a)[i]? := by
  rw [List.getElem?_set_self', List.getElem?_set_self']
  by_cases hi : i < l₁.length
  · rw [List.getElem?_eq_getElem hi, List.getElem?_eq_getElem (by omega : i < l₂.length)]
    simp
  · rw [List.getElem?_eq_none (by omega), List.getElem?_eq_none (by omega)]

/-- Off-slot congruence: two value lists that agree everywhere except possibly at
slot `i` keep agreeing off `i` after any entries are executed. -/
theorem applyValues_congr_ne (es : List (Nat × α)) (vs₁ vs₂ : List α) (i : Nat)
    (hlen : vs₂.length = vs₁.length)
    (hne : ∀ k, k ≠ i → vs₂[k]? = vs₁[k]?) :
    (applyValues vs₂ es).length = (applyValues vs₁ es).length ∧
      ∀ k, k ≠ i → (applyValues vs₂ es)[k]? = (applyValues vs₁ es)[k]? := by
  induction es generalizing vs₁ vs₂ with
  | nil => exact ⟨by rw [applyValues_nil, applyValues_nil, hlen], hne⟩
  | cons e rest ih =>
    rw [applyValues_cons, applyValues_cons]
    refine ih (vs₁.set e.1 e.2) (vs₂.set e.1 e.2) (by simp [hlen]) ?_
    intro k hk
    by_cases hke : k = e.1
    · rw [hke]
      exact set_getElem?_eq_of_length hlen e.1 e.2
    · rw [List.getElem?_set_ne (fun h => hke h.symm), List.getElem?_set_ne (fun h => hke h.symm)]
      exact hne k hk

/-- Full congruence in the presence of a pending entry: if some entry for slot `i`
is among the executed entries, a difference confined to slot `i` is erased. -/
theorem applyValues_congr_entry (es : List (Nat × α)) (vs₁ vs₂ : List α) (i : Nat) (w : α)
    (hlen : vs₂.length = vs₁.length)
    (hne : ∀ k, k ≠ i → vs₂[k]? = vs₁[k]?)
    (hmem : (i, w) ∈ es) :
    applyValues vs₂ es = applyValues vs₁ es := by
  induction es generalizing vs₁ vs₂ with
  | nil => cases hmem
  | cons e rest ih =>
    rw [applyValues_cons, applyValues_cons]
    by_cases hei : e.1 = i
    · have heq : vs₂.set e.1 e.2 = vs₁.set e.1 e.2 := by
        apply List.ext_getElem?
        intro k
        by_cases hke : k = e.1
        · rw [hke]
          exact set_getElem?_eq_of_length hlen e.1 e.2
        · rw [List.getElem?_set_ne (fun h => hke h.symm),
            List.getElem?_set_ne (fun h => hke h.symm)]
          exact hne k (by rw [← hei]; exact hke)
      rw [heq]
    · have hmem2 : (i, w) ∈ rest := by
        cases hmem with
        | head => exact absurd rfl hei
        | tail _ h => exact h
      refine ih (vs₁.set e.1 e.2) (vs₂.set e.1 e.2) (by simp [hlen]) ?_ hmem2
      intro k hk
      by_cases hke : k = e.1
      · rw [hke]
        exact set_getElem?_eq_of_length hlen e.1 e.2
      · rw [List.getElem?_set_ne (fun h => hke h.symm),
          List.getElem?_set_ne (fun h => hke h.symm)]
        exact hne k hk

/-- Entries that only touch live slots do not disturb slots appended afterwards. -/
theorem applyValues_append_slots (vs d : List α) (es : List (Nat × α))
    (hes : ∀ e ∈ es, e.1 < vs.length) :
    applyValues (vs ++ d) es = applyValues vs es ++ d := by
  induction es generalizing vs with
  | nil => rfl
  | cons e rest ih =>
    rw [applyValues_cons, applyValues_cons, List.set_append_left _ _ (hes e (by simp))]
    refine ih (vs.set e.1 e.2) ?_
    intro f hf
    rw [List.length_set]
    exact hes f (by simp [hf])

/-- Splitting a `take` at an intermediate point. -/
theorem take_split {β : Type} (t : List β) {m n : Nat} (hm : m ≤ n) :
    t.take n = t.take m ++ (t.drop m).take (n - m) := by
  conv_lhs => rw [← List.take_append_drop m (t.take n)]
  rw [List.take_take, Nat.min_eq_left hm, List.drop_take]

/-! ## Characterising `Reversible::set_value` -/

theorem Reversible.get_value_some {s : Trail α} {i : Nat} {c : Reversible α}
    (h : s.cells[i]? = some c) : Reversible.get_value s i = some c.value := by
  rw [Reversible.get_value, h]; rfl

theorem Reversible.set_value_oob {s : Trail α} {i : Nat} (h : s.cells[i]? = none) (v : α) :
    Reversible.set_value s i v = (s, none) := by
  rw [Reversible.set_value, h]

/-- A write of the value already held: no state change at all, the current value is
returned. -/
theorem Reversible.set_value_skip {s : Trail α} {i : Nat} {c : Reversible α}
    (h : s.cells[i]? = some c) {v : α} (hv : v = c.value) :
    Reversible.set_value s i v = (s, some v) := by
  rw [Reversible.set_value, h]
  simp only [hv, ne_eq, not_true_eq_false, if_false, Reversible.get_value_some h, ite_not,
    if_pos rfl]

/-- A value-changing write by a cell whose stamp differs from the trail clock:
the cell is restamped, one restore entry capturing the pre-write value is pushed,
and the value is overwritten. -/
theorem Reversible.set_value_reg {s : Trail α} {i : Nat} {c : Reversible α}
    (h : s.cells[i]? = some c) {v : α} (hv : v ≠ c.value) (hcl : s.clock ≠ c.clock) :
    Reversible.set_value s i v
      = ({ s with
          cells := s.cells.set i ⟨s.clock, v⟩
          trail := (i, c.value) :: s.trail }, some v) := by
  have hilt : i < s.cells.length := (List.getElem?_eq_some_iff.mp h).1
  have htr : Reversible.trail s i
      = Trail.push_on_trail
          { s with cells := s.cells.set i { c with clock := s.clock } } (i, c.value) := by
    simp only [Reversible.trail, h, if_pos hcl]
  have hcells : setCellValue (s.cells.set i { c with clock := s.clock }) i v
      = s.cells.set i ⟨s.clock, v⟩ := by
    have hg : (s.cells.set i { c with clock := s.clock })[i]?
        = some { c with clock := s.clock } := List.getElem?_set_self hilt
    simp only [setCellValue, hg, List.set_set]
  have hgv : (s.cells.set i (⟨s.clock, v⟩ : Reversible α))[i]? = some ⟨s.clock, v⟩ :=
    List.getElem?_set_self hilt
  simp only [Reversible.set_value, h, if_pos hv, htr, Trail.push_on_trail, hcells,
    Reversible.get_value, hgv]
  rfl

/-- A value-changing write by a cell already stamped with the trail clock: no trail
entry, only the value changes. -/
theorem Reversible.set_value_noreg {s : Trail α} {i : Nat} {c : Reversible α}
    (h : s.cells[i]? = some c) {v : α} (hv : v ≠ c.value) (hcl : s.clock = c.clock) :
    Reversible.set_value s i v
      = ({ s with cells := s.cells.set i { c with value := v } }, some v) := by
  have hilt : i < s.cells.length := (List.getElem?_eq_some_iff.mp h).1
  have htr : Reversible.trail s i = s := by
    simp only [Reversible.trail, h, hcl, ne_eq, not_true_eq_false, if_false]
  have hcells : setCellValue s.cells i v = s.cells.set i { c with value := v } := by
    simp only [setCellValue, h]
  have hgv : (s.cells.set i ({ c with value := v } : Reversible α))[i]?
      = some { c with value := v } := List.getElem?_set_self hilt
  simp only [Reversible.set_value, h, if_pos hv, htr, hcells,
    Reversible.get_value, hgv]
  rfl

/-! ## Structural well-formedness is preserved by every operation -/

theorem WF.headD_le {s : Trail α} (hw : WF s) : s.limit.headD 0 ≤ s.trail.length := by
  cases hl : s.limit with
  | nil => simp
  | cons b rest =>
    rw [List.headD_cons]
    exact hw.le_len b (by rw [hl]; exact List.mem_cons_self ..)

theorem wf_new : WF (Trail.new : Trail α) := by
  constructor <;> simp [Trail.new]

theorem wf_push {s : Trail α} (hw : WF s) : WF s.push := by
  refine ⟨?_, ?_, ?_⟩
  · rw [Trail.push_limit]
    exact List.pairwise_cons.mpr ⟨fun b hb => hw.le_len b hb, hw.sorted⟩
  · rw [Trail.push_limit, Trail.push_trail]
    intro b hb
    rcases List.mem_cons.mp hb with h | h
    · omega
    · exact hw.le_len b h
  · rw [Trail.push_cells, Trail.push_clock]
    intro c hc
    exact Nat.le_succ_of_le (hw.cells_clock c hc)

theorem wf_push_on_trail {s : Trail α} (hw : WF s) (e : Nat × α) : WF (s.push_on_trail e) := by
  refine ⟨hw.sorted, ?_, hw.cells_clock⟩
  intro b hb
  have := hw.le_len b hb
  simp only [Trail.push_on_trail, List.length_cons]
  omega

theorem mem_foldl_execEntry_clock {cells : List (Reversible α)} {es : List (Nat × α)}
    {c : Reversible α} (hc : c ∈ List.foldl execEntry cells es) :
    ∃ c₀ ∈ cells, c₀.clock = c.clock := by
  have h1 : c.clock ∈ (List.foldl execEntry cells es).map Reversible.clock :=
    List.mem_map_of_mem _ hc
  rw [clocks_foldl_execEntry] at h1
  rcases List.mem_map.mp h1 with ⟨c₀, hc₀, he⟩
  exact ⟨c₀, hc₀, he⟩

theorem wf_pop {s : Trail α} (hw : WF s) : WF s.pop := by
  have hb : s.limit.headD 0 ≤ s.trail.length := hw.headD_le
  have htr := s.pop_trail_eq hb
  have hcl := s.pop_cells_eq hb
  have hlen : (s.pop).trail.length = s.limit.headD 0 := by
    rw [htr, List.length_drop]
    omega
  refine ⟨?_, ?_, ?_⟩
  · rw [Trail.pop_limit]
    exact hw.sorted.sublist (List.tail_sublist _)
  · intro b hbm
    rw [Trail.pop_limit] at hbm
    rw [hlen]
    cases hl : s.limit with
    | nil => rw [hl] at hbm; cases hbm
    | cons b₀ rest =>
      rw [hl] at hbm
      simp only [List.tail_cons] at hbm
      have hp := hw.sorted
      rw [hl] at hp
      have := (List.pairwise_cons.mp hp).1 b hbm
      rw [List.headD_cons]
      exact this
  · intro c hc
    rw [Trail.pop_clock]
    rw [hcl] at hc
    rcases mem_foldl_execEntry_clock hc with ⟨c₀, hc₀, he⟩
    have := hw.cells_clock c₀ hc₀
    omega

theorem wf_popIter {s : Trail α} (hw : WF s) (n : Nat) : WF (s.popIter n) := by
  induction n generalizing s with
  | zero => exact hw
  | succ n ih => exact ih (wf_pop hw)

theorem wf_pop_until {s : Trail α} (hw : WF s) (l : Nat) : WF (s.pop_until l) := by
  rw [Trail.pop_until_eq_iter]
  exact wf_popIter hw _

theorem wf_pop_all {s : Trail α} (hw : WF s) : WF s.pop_all := wf_pop_until hw 0

theorem wf_newCell {s : Trail α} (hw : WF s) (v : α) : WF (Reversible.new s v).1 := by
  refine ⟨hw.sorted, hw.le_len, ?_⟩
  intro c hc
  simp only [Reversible.new] at hc
  rcases List.mem_append.mp hc with h | h
  · exact hw.cells_clock c h
  · rw [List.mem_singleton.mp h]
    exact Nat.le.refl

theorem wf_setValue {s : Trail α} (hw : WF s) (i : Nat) (v : α) :
    WF (Reversible.set_value s i v).1 := by
  cases h : s.cells[i]? with
  | none => rw [Reversible.set_value_oob h]; exact hw
  | some c =>
    by_cases hv : v = c.value
    · rw [Reversible.set_value_skip h hv]; exact hw
    · by_cases hcl : s.clock = c.clock
      · rw [Reversible.set_value_noreg h hv hcl]
        refine ⟨hw.sorted, hw.le_len, ?_⟩
        intro c' hc'
        rcases List.mem_or_eq_of_mem_set hc' with hm | he
        · exact hw.cells_clock c' hm
        · rw [he]; exact hw.cells_clock c (List.getElem?_mem h)
      · rw [Reversible.set_value_reg h hv hcl]
        refine ⟨hw.sorted, ?_, ?_⟩
        · intro b hb
          have := hw.le_len b hb
          simp only [List.length_cons]
          omega
        · intro c' hc'
          rcases List.mem_or_eq_of_mem_set hc' with hm | he
          · exact hw.cells_clock c' hm
          · rw [he]

theorem wf_step {s : Trail α} (hw : WF s) (op : Op α) : WF (step s op) := by
  cases op with
  | push => exact wf_push hw
  | pop => exact wf_pop hw
  | popUntil l => exact wf_pop_until hw l
  | popAll => exact wf_pop_all hw
  | newCell v => exact wf_newCell hw v
  | setValue i v => exact wf_setValue hw i v
  | register i v => exact wf_push_on_trail hw (i, v)

/-- Every state reachable through the public API is structurally well formed. -/
theorem reachable_wf {s : Trail α} (hs : Reachable s) : WF s := by
  induction hs with
  | init => exact wf_new
  | step _ op ih => exact wf_step ih op

theorem reachable_step_run {s : Trail α} (hs : Reachable s) (ops : List (Op α)) :
    Reachable (run s ops) := by
  induction ops generalizing s with
  | nil => exact hs
  | cons op rest ih => exact ih (hs.step op)

/-- Every concrete run of the API from `Trail::new()` lands in a reachable state. -/
theorem reachable_run (ops : List (Op α)) : Reachable (run Trail.new ops) :=
  reachable_step_run Reachable.init ops

/-! ## Componentwise equality of states -/

theorem Trail.ext' {s t : Trail α} (h1 : s.clock = t.clock) (h2 : s.trail = t.trail)
    (h3 : s.limit = t.limit) (h4 : s.cells = t.cells) : s = t := by
  cases s; cases t
  simp_all

/-! ## The clock never decreases, and `push`/`pop` advance it -/

theorem Trail.popIter_clock_le (s : Trail α) (n : Nat) : s.clock ≤ (s.popIter n).clock := by
  induction n generalizing s with
  | zero => exact Nat.le.refl
  | succ n ih =>
    have h1 : s.clock ≤ (s.pop).clock := by rw [Trail.pop_clock]; omega
    exact Nat.le_trans h1 (ih s.pop)

theorem Reversible.set_value_state_clock (s : Trail α) (i : Nat) (v : α) :
    (Reversible.set_value s i v).1.clock = s.clock := by
  cases h : s.cells[i]? with
  | none => rw [Reversible.set_value_oob h]
  | some c =>
    by_cases hv : v = c.value
    · rw [Reversible.set_value_skip h hv]
    · by_cases hcl : s.clock = c.clock
      · rw [Reversible.set_value_noreg h hv hcl]
      · rw [Reversible.set_value_reg h hv hcl]

/-- C6: the trail clock strictly increases across every `push()` and every `pop()`
call — including a `pop()` with no outstanding checkpoint, whose clock still steps
from `clock` to `clock + 1` — and no operation of the public API ever decreases it. -/
theorem claim_C6_clock_monotone (s : Trail α) :
    (s.push).clock = s.clock + 1 ∧ (s.pop).clock = s.clock + 1 ∧
      ∀ op : Op α, s.clock ≤ (step s op).clock := by
  refine ⟨Trail.push_clock s, Trail.pop_clock s, ?_⟩
  intro op
  cases op with
  | push => rw [step, Trail.push_clock]; omega
  | pop => rw [step, Trail.pop_clock]; omega
  | popUntil l => rw [step, Trail.pop_until_eq_iter]; exact s.popIter_clock_le _
  | popAll => rw [step, Trail.pop_all, Trail.pop_until_eq_iter]; exact s.popIter_clock_le _
  | newCell v => exact Nat.le.refl
  | setValue i v => rw [step, Reversible.set_value_state_clock]
  | register i v => exact Nat.le.refl

/-- C7: writing the value a cell already holds is a complete no-op: `set_value`
returns the current value at once, pushes nothing on the trail, and leaves the
cell's stamped clock, the trail and every other component of the state untouched
(the returned state is the input state itself). -/
theorem claim_C7_noop_write (s : Trail α) (i : Nat) (c : Reversible α)
    (h : s.cells[i]? = some c) (v : α) (hv : v = c.value) :
    Reversible.set_value s i v = (s, some v) :=
  Reversible.set_value_skip h hv

theorem claim_C7_noop_write_witness :
    ((Trail.new : Trail Nat).cells ++ [⟨0, 7⟩] : List (Reversible Nat))[0]? = some ⟨0, 7⟩ ∧
      Reversible.set_value (Reversible.new (Trail.new : Trail Nat) 7).1 0 7
        = ((Reversible.new (Trail.new : Trail Nat) 7).1, some 7) :=
  ⟨by decide, claim_C7_noop_write (Reversible.new (Trail.new : Trail Nat) 7).1 0 ⟨0, 7⟩
    (by decide) 7 (by decide)⟩

/-- C10: `set_value` is not unit-returning: for a live cell it returns `Some v`,
the value the cell holds immediately after the call, whether or not the write was
elided as redundant; so `result = v = get_value()` after every call. -/
theorem claim_C10_setter_returns (s : Trail α) (i : Nat) (v : α) (c : Reversible α)
    (h : s.cells[i]? = some c) :
    (Reversible.set_value s i v).2 = some v ∧
      Reversible.get_value (Reversible.set_value s i v).1 i = some v := by
  have hilt : i < s.cells.length := (List.getElem?_eq_some_iff.mp h).1
  by_cases hv : v = c.value
  · rw [Reversible.set_value_skip h hv]
    exact ⟨rfl, by rw [Reversible.get_value_some h, hv]⟩
  · by_cases hcl : s.clock = c.clock
    · rw [Reversible.set_value_noreg h hv hcl]
      exact ⟨rfl, Reversible.get_value_some (List.getElem?_set_self hilt)⟩
    · rw [Reversible.set_value_reg h hv hcl]
      exact ⟨rfl, Reversible.get_value_some (List.getElem?_set_self hilt)⟩

theorem claim_C10_setter_returns_witness :
    ((Trail.new : Trail Nat).cells ++ [⟨0, 7⟩] : List (Reversible Nat))[0]? = some ⟨0, 7⟩ ∧
      (Reversible.set_value (Reversible.new (Trail.new : Trail Nat) 7).1 0 9).2 = some 9 ∧
      Reversible.get_value
        (Reversible.set_value (Reversible.new (Trail.new : Trail Nat) 7).1 0 9).1 0 = some 9 :=
  ⟨by decide, claim_C10_setter_returns (Reversible.new (Trail.new : Trail Nat) 7).1 0 9 ⟨0, 7⟩
    (by decide)⟩

/-- C9: after any `pop()` from a reachable state, the log length is exactly the
boundary that was on top of the boundary stack (`0` when the stack was empty), the
removed entries are precisely the part of the log above that boundary, and the new
cell storage is obtained by executing exactly those removed closures once each,
newest first — i.e. in reverse order of registration (`List.foldl` walks our
head-topped log from the newest entry down).  With no outstanding checkpoint the
whole (possibly non-empty) log is executed and removed. -/
theorem claim_C9_pop_log (s : Trail α) (hs : Reachable s) :
    (s.pop).trail.length = s.limit.headD 0 ∧
      s.trail = s.trail.take (s.trail.length - s.limit.headD 0) ++ (s.pop).trail ∧
      (s.pop).cells
        = List.foldl execEntry s.cells (s.trail.take (s.trail.length - s.limit.headD 0)) ∧
      (s.limit = [] → (s.pop).trail = []) := by
  have hw := reachable_wf hs
  have hb : s.limit.headD 0 ≤ s.trail.length := hw.headD_le
  have htr := s.pop_trail_eq hb
  have hcl := s.pop_cells_eq hb
  refine ⟨?_, ?_, hcl, ?_⟩
  · rw [htr, List.length_drop]; omega
  · rw [htr, List.take_append_drop]
  · intro hnil
    rw [htr, hnil]
    simp

theorem claim_C9_pop_log_witness :
    Reachable (run (Trail.new : Trail Nat) [Op.newCell 5, Op.push, Op.setValue 0 9]) ∧
      ((run (Trail.new : Trail Nat) [Op.newCell 5, Op.push, Op.setValue 0 9]).pop).trail.length
        = (run (Trail.new : Trail Nat) [Op.newCell 5, Op.push, Op.setValue 0 9]).limit.headD 0 := by
  have h := claim_C9_pop_log (run (Trail.new : Trail Nat) [Op.newCell 5, Op.push, Op.setValue 0 9])
    (reachable_run _)
  exact ⟨reachable_run _, h.1⟩

/-- C8: in every state reachable by any sequence of `push`, `pop`, `pop_until`,
`pop_all` and raw `push_on_trail` registrations (and also cell creations and
writes), the boundary stack is non-decreasing from bottom to top — with our
head-topped representation: every newer boundary is `≥` every older one —, every
boundary is at most the current log length, and `level() ≥ 0`. -/
theorem claim_C8_boundary_invariants (s : Trail α) (hs : Reachable s) :
    s.limit.Pairwise (· ≥ ·) ∧ (∀ b ∈ s.limit, b ≤ s.trail.length) ∧ 0 ≤ s.level := by
  have hw := reachable_wf hs
  exact ⟨hw.sorted, hw.le_len, Nat.zero_le _⟩

theorem claim_C8_boundary_invariants_witness :
    Reachable (run (Trail.new : Trail Nat) [Op.push, Op.register 0 3, Op.push, Op.register 0 4]) ∧
      (run (Trail.new : Trail Nat)
        [Op.push, Op.register 0 3, Op.push, Op.register 0 4]).limit.Pairwise (· ≥ ·) := by
  have h := claim_C8_boundary_invariants
    (run (Trail.new : Trail Nat) [Op.push, Op.register 0 3, Op.push, Op.register 0 4])
    (reachable_run _)
  exact ⟨reachable_run _, h.1⟩

/-! ## `pop()` with no outstanding checkpoint (claim C3) -/

/-- C3 counterexample: `pop()` at `level() == 0` is *not* a no-op on the log and the
cells.  Reachable state: create a cell with value 5, `push`, `pop` (this advances the
clock past the cell's stamp), then write 9 — the write registers a restore entry even
though no checkpoint is open, so the state below has `level() == 0` and a non-empty
log.  A further `pop()` empties the log and resets the cell from 9 back to 5,
contradicting "the log is left untouched … the value of every cell bound to the trail
is unchanged". -/
theorem claim_C3_counterexample :
    (run (Trail.new : Trail Nat) [Op.newCell 5, Op.push, Op.pop, Op.setValue 0 9]).level = 0 ∧
      (run (Trail.new : Trail Nat) [Op.newCell 5, Op.push, Op.pop, Op.setValue 0 9]).trail
        = [(0, 5)] ∧
      Reversible.get_value
        (run (Trail.new : Trail Nat) [Op.newCell 5, Op.push, Op.pop, Op.setValue 0 9]) 0
        = some 9 ∧
      ((run (Trail.new : Trail Nat) [Op.newCell 5, Op.push, Op.pop, Op.setValue 0 9]).pop).trail
        = [] ∧
      Reversible.get_value
        ((run (Trail.new : Trail Nat) [Op.newCell 5, Op.push, Op.pop, Op.setValue 0 9]).pop) 0
        = some 5 := by
  decide

/-- C3 (amended): calling `pop()` when `level() == 0` advances the clock, leaves
`level()` at 0, and — the boundary stack being empty, `unwrap_or(0)` yields the
boundary 0 — executes and removes *every* pending log entry; the log and the cell
values are left untouched exactly when the log was already empty (which need not be
the case at level 0, since a cell registers whenever its stamp differs from the trail
clock).  No error is raised in any case. -/
theorem claim_C3_idle_pop (s : Trail α) (h : s.level = 0) :
    (s.pop).clock = s.clock + 1 ∧ (s.pop).level = 0 ∧ (s.pop).trail = [] ∧
      (s.pop).cells = List.foldl execEntry s.cells s.trail ∧
      (s.trail = [] → (s.pop).cells = s.cells ∧ (s.pop).trail = s.trail) := by
  have hlim : s.limit = [] := List.length_eq_zero.mp h
  have hb : s.limit.headD 0 = 0 := by rw [hlim]; rfl
  have hble : s.limit.headD 0 ≤ s.trail.length := by rw [hb]; exact Nat.zero_le _
  have htr := s.pop_trail_eq hble
  have hcl := s.pop_cells_eq hble
  rw [hb] at htr hcl
  simp only [Nat.sub_zero] at htr hcl
  refine ⟨Trail.pop_clock s, ?_, ?_, ?_, ?_⟩
  · rw [Trail.pop_level, h]
  · rw [htr, List.drop_length]
  · rw [hcl, List.take_length]
  · intro hnil
    constructor
    · rw [hcl, List.take_length, hnil]
      rfl
    · rw [htr, List.drop_length, hnil]

theorem claim_C3_idle_pop_witness :
    (run (Trail.new : Trail Nat) [Op.newCell 5, Op.push, Op.pop]).level = 0 ∧
      ((run (Trail.new : Trail Nat) [Op.newCell 5, Op.push, Op.pop]).pop).clock
        = (run (Trail.new : Trail Nat) [Op.newCell 5, Op.push, Op.pop]).clock + 1 ∧
      ((run (Trail.new : Trail Nat) [Op.newCell 5, Op.push, Op.pop]).pop).level = 0 ∧
      ((run (Trail.new : Trail Nat) [Op.newCell 5, Op.push, Op.pop]).pop).trail = [] ∧
      ((run (Trail.new : Trail Nat) [Op.newCell 5, Op.push, Op.pop]).pop).cells
        = List.foldl execEntry (run (Trail.new : Trail Nat) [Op.newCell 5, Op.push, Op.pop]).cells
            (run (Trail.new : Trail Nat) [Op.newCell 5, Op.push, Op.pop]).trail ∧
      ((run (Trail.new : Trail Nat) [Op.newCell 5, Op.push, Op.pop]).trail = [] →
        ((run (Trail.new : Trail Nat) [Op.newCell 5, Op.push, Op.pop]).pop).cells
            = (run (Trail.new : Trail Nat) [Op.newCell 5, Op.push, Op.pop]).cells ∧
          ((run (Trail.new : Trail Nat) [Op.newCell 5, Op.push, Op.pop]).pop).trail
            = (run (Trail.new : Trail Nat) [Op.newCell 5, Op.push, Op.pop]).trail) :=
  ⟨by decide, claim_C3_idle_pop (run (Trail.new : Trail Nat) [Op.newCell 5, Op.push, Op.pop])
    (by decide)⟩

/-! ## Coalescing of writes within one checkpoint (claims C1, C2) -/

theorem first_set_after_push (s : Trail α) (i : Nat) (c : Reversible α)
    (h : s.cells[i]? = some c) (hclk : c.clock ≤ s.clock) {v : α} (hv : v ≠ c.value) :
    (Reversible.set_value s.push i v).1 = midState s i c.value v := by
  have hp : (s.push).cells[i]? = some c := h
  have hcl : (s.push).clock ≠ c.clock := by
    rw [Trail.push_clock]; omega
  rw [Reversible.set_value_reg hp hv hcl]
  rfl

theorem set_value_midState (s : Trail α) (i : Nat) (c : Reversible α)
    (h : s.cells[i]? = some c) (v₀ w v : α) :
    (Reversible.set_value (midState s i v₀ w) i v).1 = midState s i v₀ v := by
  have hilt : i < s.cells.length := (List.getElem?_eq_some_iff.mp h).1
  have hB : (midState s i v₀ w).cells[i]? = some ⟨s.clock + 1, w⟩ :=
    List.getElem?_set_self hilt
  by_cases hvw : v = w
  · rw [Reversible.set_value_skip hB hvw, hvw]
  · have hclB : (midState s i v₀ w).clock = (⟨s.clock + 1, w⟩ : Reversible α).clock := rfl
    rw [Reversible.set_value_noreg hB hvw hclB]
    refine Trail.ext' rfl rfl rfl ?_
    show ((s.cells.set i ⟨s.clock + 1, w⟩).set i ⟨s.clock + 1, v⟩)
      = s.cells.set i ⟨s.clock + 1, v⟩
    rw [List.set_set]

theorem run_sets_midState (s : Trail α) (i : Nat) (c : Reversible α)
    (h : s.cells[i]? = some c) (v₀ : α) (vs : List α) (w : α) :
    run (midState s i v₀ w) (vs.map (Op.setValue i)) = midState s i v₀ (vs.getLastD w) := by
  induction vs generalizing w with
  | nil => rfl
  | cons v rest ih =>
    show run (step (midState s i v₀ w) (Op.setValue i v)) (rest.map (Op.setValue i))
      = midState s i v₀ ((v :: rest).getLastD w)
    rw [show step (midState s i v₀ w) (Op.setValue i v)
        = (Reversible.set_value (midState s i v₀ w) i v).1 from rfl]
    rw [set_value_midState s i c h v₀ w v, ih v, List.getLastD_cons]

/-- Running any sequence of `set_value i` calls right after a `push` either changes
nothing (when every written value equals the current one) or yields `midState`:
exactly one registered entry `(i, pre-push value)`, whatever the number of writes. -/
theorem run_sets_after_push (s : Trail α) (i : Nat) (c : Reversible α)
    (h : s.cells[i]? = some c) (hclk : c.clock ≤ s.clock) (vs : List α) :
    ((∀ v ∈ vs, v = c.value) ∧ run s.push (vs.map (Op.setValue i)) = s.push)
    ∨ ((¬ ∀ v ∈ vs, v = c.value)
        ∧ ∃ w, run s.push (vs.map (Op.setValue i)) = midState s i c.value w) := by
  induction vs with
  | nil => exact Or.inl ⟨by simp, rfl⟩
  | cons v rest ih =>
    have hrun : run s.push ((v :: rest).map (Op.setValue i))
        = run (step s.push (Op.setValue i v)) (rest.map (Op.setValue i)) := rfl
    by_cases hv : v = c.value
    · have hskip : step s.push (Op.setValue i v) = s.push := by
        show (Reversible.set_value s.push i v).1 = s.push
        rw [Reversible.set_value_skip (show (s.push).cells[i]? = some c from h) hv]
    
      rcases ih with ⟨hall, heq⟩ | ⟨hnall, w, heq⟩
      · refine Or.inl ⟨?_, by rw [hrun, hskip, heq]⟩
        intro u hu
        rcases List.mem_cons.mp hu with h1 | h1
        · rw [h1]; exact hv
        · exact hall u h1
      · refine Or.inr ⟨?_, w, by rw [hrun, hskip, heq]⟩
        intro hc2
        exact hnall fun u hu => hc2 u (List.mem_cons_of_mem v hu)
    · have hfirst : step s.push (Op.setValue i v) = midState s i c.value v := by
        show (Reversible.set_value s.push i v).1 = midState s i c.value v
        exact first_set_after_push s i c h hclk hv
      refine Or.inr ⟨?_, rest.getLastD v, ?_⟩
      · intro hc2
        exact hv (hc2 v (List.mem_cons_self ..))
      · rw [hrun, hfirst, run_sets_midState s i c h]

theorem pop_push (s : Trail α) : (s.push).pop = { s with clock := s.clock + 2 } := by
  have hle : (s.push).limit.headD 0 ≤ (s.push).trail.length := Nat.le.refl
  refine Trail.ext' rfl ?_ rfl ?_
  · rw [Trail.pop_trail_eq _ hle]
    show s.trail.drop (s.trail.length - s.trail.length) = s.trail
    rw [Nat.sub_self, List.drop_zero]
  · rw [Trail.pop_cells_eq _ hle]
    show List.foldl execEntry s.cells (s.trail.take (s.trail.length - s.trail.length)) = s.cells
    rw [Nat.sub_self, List.take_zero]
    rfl

theorem pop_midState (s : Trail α) (i : Nat) (c : Reversible α)
    (h : s.cells[i]? = some c) (v₀ w : α) :
    (midState s i v₀ w).pop
      = { s with
          clock := s.clock + 2
          cells := s.cells.set i ⟨s.clock + 1, v₀⟩ } := by
  have hilt : i < s.cells.length := (List.getElem?_eq_some_iff.mp h).1
  have hle : (midState s i v₀ w).limit.headD 0 ≤ (midState s i v₀ w).trail.length := by
    show s.trail.length ≤ s.trail.length + 1
    omega
  have hone : (midState s i v₀ w).trail.length - (midState s i v₀ w).limit.headD 0 = 1 := by
    show s.trail.length + 1 - s.trail.length = 1
    omega
  refine Trail.ext' rfl ?_ rfl ?_
  · rw [Trail.pop_trail_eq _ hle, hone]
    rfl
  · rw [Trail.pop_cells_eq _ hle, hone]
    show List.foldl execEntry (s.cells.set i ⟨s.clock + 1, w⟩) [(i, v₀)]
      = s.cells.set i ⟨s.clock + 1, v₀⟩
    have hB : (s.cells.set i (⟨s.clock + 1, w⟩ : Reversible α))[i]? = some ⟨s.clock + 1, w⟩ :=
      List.getElem?_set_self hilt
    show execEntry (s.cells.set i ⟨s.clock + 1, w⟩) (i, v₀) = s.cells.set i ⟨s.clock + 1, v₀⟩
    rw [execEntry, setCellValue, hB]
    show (s.cells.set i ⟨s.clock + 1, w⟩).set i ⟨s.clock + 1, v₀⟩
      = s.cells.set i ⟨s.clock + 1, v₀⟩
    rw [List.set_set]

/-- C2: the single-level round trip.  For any reachable state, any cell bound to the
trail and any value `x`, the sequence `push(); set_value(x); pop()` leaves the cell's
`get_value()` at its pre-push value and `level()` at its pre-push value. -/
theorem claim_C2_round_trip (s : Trail α) (hs : Reachable s) (i : Nat) (c : Reversible α)
    (h : s.cells[i]? = some c) (x : α) :
    Reversible.get_value ((Reversible.set_value s.push i x).1.pop) i
        = Reversible.get_value s i ∧
      ((Reversible.set_value s.push i x).1.pop).level = s.level := by
  have hw := reachable_wf hs
  have hclk : c.clock ≤ s.clock := hw.cells_clock c (List.getElem?_mem h)
  have hilt : i < s.cells.length := (List.getElem?_eq_some_iff.mp h).1
  by_cases hx : x = c.value
  · have hstep : (Reversible.set_value s.push i x).1 = s.push := by
      rw [Reversible.set_value_skip (show (s.push).cells[i]? = some c from h) hx]
    rw [hstep, pop_push]
    exact ⟨rfl, rfl⟩
  · rw [first_set_after_push s i c h hclk hx, pop_midState s i c h]
    refine ⟨?_, rfl⟩
    rw [Reversible.get_value_some h]
    exact @Reversible.get_value_some α _
      { s with clock := s.clock + 2, cells := s.cells.set i ⟨s.clock + 1, c.value⟩ } i
      ⟨s.clock + 1, c.value⟩ (List.getElem?_set_self hilt)

theorem claim_C2_round_trip_witness :
    (run (Trail.new : Trail Nat) [Op.newCell 5]).cells[0]? = some ⟨0, 5⟩ ∧
      Reversible.get_value
          ((Reversible.set_value (run (Trail.new : Trail Nat) [Op.newCell 5]).push 0 9).1.pop) 0
        = Reversible.get_value (run (Trail.new : Trail Nat) [Op.newCell 5]) 0 ∧
      ((Reversible.set_value (run (Trail.new : Trail Nat) [Op.newCell 5]).push 0 9).1.pop).level
        = (run (Trail.new : Trail Nat) [Op.newCell 5]).level :=
  ⟨by decide, claim_C2_round_trip _ (reachable_run _) 0 ⟨0, 5⟩ (by decide) 9⟩

/-- C1 counterexample: "at most one restore action per cell per checkpoint level is
ever present in the log" is false.  After `newCell 0; push; set 1; push; set 2; pop;
set 5` exactly one checkpoint is open (`level = 1`, the only boundary is `0`), yet
the log holds *two* restore actions for cell `0` — `(0, 1)` and `(0, 0)` — both
belonging to that open checkpoint level: the inner `push`/`pop` cycle advanced the
clock, so the cell re-registered at the same level.  (The restoring `pop` still
yields the correct value 0, executing both entries newest-first.) -/
theorem claim_C1_counterexample :
    (run (Trail.new : Trail Nat)
        [Op.newCell 0, Op.push, Op.setValue 0 1, Op.push, Op.setValue 0 2, Op.pop,
          Op.setValue 0 5]).trail = [(0, 1), (0, 0)] ∧
      (run (Trail.new : Trail Nat)
        [Op.newCell 0, Op.push, Op.setValue 0 1, Op.push, Op.setValue 0 2, Op.pop,
          Op.setValue 0 5]).limit = [0] ∧
      (run (Trail.new : Trail Nat)
        [Op.newCell 0, Op.push, Op.setValue 0 1, Op.push, Op.setValue 0 2, Op.pop,
          Op.setValue 0 5]).level = 1 ∧
      Reversible.get_value
        ((run (Trail.new : Trail Nat)
          [Op.newCell 0, Op.push, Op.setValue 0 1, Op.push, Op.setValue 0 2, Op.pop,
            Op.setValue 0 5]).pop) 0 = some 0 := by
  decide

/-- C1 (amended, see `claim_C1_counterexample`): per *clock period* — here: while one
checkpoint is open and no other trail operation intervenes — arbitrarily many
`set_value` mutations of the same cell append exactly one log entry: the first
value-changing write since the clock last changed (the push) registers, capturing the
value held at the moment the checkpoint was opened; later ones do not.  `pop()` then
restores exactly that opening value, never an intermediate one. -/
theorem claim_C1_coalescing (s : Trail α) (hs : Reachable s) (i : Nat) (c : Reversible α)
    (h : s.cells[i]? = some c) (vs : List α) :
    ((run s.push (vs.map (Op.setValue i))).trail
        = if ∀ v ∈ vs, v = c.value then s.trail else (i, c.value) :: s.trail) ∧
      Reversible.get_value ((run s.push (vs.map (Op.setValue i))).pop) i = some c.value ∧
      ((run s.push (vs.map (Op.setValue i))).pop).trail = s.trail ∧
      ((run s.push (vs.map (Op.setValue i))).pop).limit = s.limit ∧
      ((run s.push (vs.map (Op.setValue i))).pop).level = s.level := by
  have hw := reachable_wf hs
  have hclk : c.clock ≤ s.clock := hw.cells_clock c (List.getElem?_mem h)
  have hilt : i < s.cells.length := (List.getElem?_eq_some_iff.mp h).1
  rcases run_sets_after_push s i c h hclk vs with ⟨hall, heq⟩ | ⟨hnall, w, heq⟩
  · rw [heq, pop_push, if_pos hall]
    exact ⟨rfl, Reversible.get_value_some h, rfl, rfl, rfl⟩
  · rw [heq, pop_midState s i c h, if_neg hnall]
    refine ⟨rfl, ?_, rfl, rfl, rfl⟩
    exact @Reversible.get_value_some α _
      { s with clock := s.clock + 2, cells := s.cells.set i ⟨s.clock + 1, c.value⟩ } i
      ⟨s.clock + 1, c.value⟩ (List.getElem?_set_self hilt)

theorem claim_C1_coalescing_witness :
    (run (Trail.new : Trail Nat) [Op.newCell 5]).cells[0]? = some ⟨0, 5⟩ ∧
      Reversible.get_value ((run (run (Trail.new : Trail Nat) [Op.newCell 5]).push
          ([7, 8, 7].map (Op.setValue 0))).pop) 0 = some 5 :=
  ⟨by decide, (claim_C1_coalescing _ (reachable_run [Op.newCell 5]) 0 ⟨0, 5⟩
    (by decide) [7, 8, 7]).2.1⟩

/-! ## Ghost snapshots: the restoration invariant (claims C4, C5) -/

theorem greach_reachable {s : Trail α} {snaps : List (List α)} (hg : GReach s snaps) :
    Reachable s := by
  induction hg with
  | init => exact Reachable.init
  | push _ ih => exact ih.step Op.push
  | pop _ ih => exact ih.step Op.pop
  | popUntil l _ ih => exact ih.step (Op.popUntil l)
  | popAll _ ih => exact ih.step Op.popAll
  | newCell v _ ih => exact ih.step (Op.newCell v)
  | setValue i v _ ih => exact ih.step (Op.setValue i v)

theorem set_self_of_getElem? {β : Type} {l : List β} {i : Nat} {x : β} (h : l[i]? = some x) :
    l.set i x = l := by
  have hilt : i < l.length := (List.getElem?_eq_some_iff.mp h).1
  apply List.ext_getElem?
  intro k
  by_cases hk : k = i
  · rw [hk, List.getElem?_set_self hilt, h]
  · rw [List.getElem?_set_ne (fun hh => hk hh.symm)]

theorem take_eq_take_of_getElem? {β : Type} {a b : List β} {n : Nat}
    (h : ∀ k, k < n → a[k]? = b[k]?) : a.take n = b.take n := by
  apply List.ext_getElem?
  intro k
  by_cases hk : k < n
  · rw [List.getElem?_take_of_lt hk, List.getElem?_take_of_lt hk]
    exact h k hk
  · rw [List.getElem?_eq_none, List.getElem?_eq_none]
    · have := b.length_take n
      omega
    · have := a.length_take n
      omega

theorem foldl_execEntry_clock_getElem? {cells : List (Reversible α)} {es : List (Nat × α)}
    {i : Nat} {c : Reversible α} (h : (List.foldl execEntry cells es)[i]? = some c) :
    ∃ c₀, cells[i]? = some c₀ ∧ c₀.clock = c.clock := by
  have h1 : ((List.foldl execEntry cells es).map Reversible.clock)[i]? = some c.clock := by
    rw [List.getElem?_map, h]; rfl
  rw [clocks_foldl_execEntry, List.getElem?_map] at h1
  rcases Option.map_eq_some'.mp h1 with ⟨c₀, hc₀, he⟩
  exact ⟨c₀, hc₀, he⟩

theorem ev_new : EV (Trail.new : Trail α) := by
  intro e he
  cases he

theorem ev_push {s : Trail α} (he : EV s) : EV s.push := he

theorem ev_push_on_trail_of_lt {s : Trail α} (he : EV s) {i : Nat} (hi : i < s.cells.length)
    (v : α) : EV (s.push_on_trail (i, v)) := by
  intro e hm
  rcases List.mem_cons.mp hm with h1 | h1
  · rw [h1]; exact hi
  · exact he e h1

theorem ev_pop {s : Trail α} (he : EV s) (hw : WF s) : EV s.pop := by
  intro e hm
  rw [Trail.pop_trail_eq _ hw.headD_le] at hm
  have h1 : e ∈ s.trail := (s.trail.drop_subset _) hm
  have h2 := he e h1
  rw [Trail.pop_cells, unwind_eq _ _ _ hw.headD_le]
  rw [length_foldl_execEntry]
  exact h2

theorem ev_newCell {s : Trail α} (he : EV s) (v : α) : EV (Reversible.new s v).1 := by
  intro e hm
  have h2 := he e hm
  show e.1 < (s.cells ++ [(⟨s.clock, v⟩ : Reversible α)]).length
  rw [List.length_append]
  omega

theorem ev_setValue {s : Trail α} (he : EV s) (i : Nat) (v : α) :
    EV (Reversible.set_value s i v).1 := by
  cases h : s.cells[i]? with
  | none => rw [Reversible.set_value_oob h]; exact he
  | some c =>
    have hilt : i < s.cells.length := (List.getElem?_eq_some_iff.mp h).1
    by_cases hv : v = c.value
    · rw [Reversible.set_value_skip h hv]; exact he
    · by_cases hcl : s.clock = c.clock
      · rw [Reversible.set_value_noreg h hv hcl]
        intro e hm
        have h2 := he e hm
        show e.1 < (s.cells.set i _).length
        rw [List.length_set]
        exact h2
      · rw [Reversible.set_value_reg h hv hcl]
        intro e hm
        show e.1 < (s.cells.set i _).length
        rw [List.length_set]
        rcases List.mem_cons.mp hm with h1 | h1
        · rw [h1]; exact hilt
        · exact he e h1

theorem snapinv_new : SnapInv (Trail.new : Trail α) [] := by
  refine ⟨rfl, ?_, ?_, ?_⟩
  · intro j sn hj
    rw [List.getElem?_eq_none (by simp : ([] : List (List α)).length ≤ j)] at hj
    cases hj
  · intro j b sn hj hb
    rw [List.getElem?_eq_none (by simp : ([] : List (List α)).length ≤ j)] at hj
    cases hj
  · intro j b i sn c hj hb
    rw [List.getElem?_eq_none (by simp : ([] : List (List α)).length ≤ j)] at hj
    cases hj

/-- `push()` installs the current cell values as the snapshot of the newly opened
checkpoint, and keeps the invariant for all older checkpoints. -/
theorem snapinv_push {s : Trail α} {snaps : List (List α)} (hi : SnapInv s snaps)
    (hw : WF s) : SnapInv s.push (valuesOf s.cells :: snaps) := by
  refine ⟨?_, ?_, ?_, ?_⟩
  · show (valuesOf s.cells :: snaps).length = (s.trail.length :: s.limit).length
    simp [hi.len_eq]
  · intro j sn hj
    cases j with
    | zero =>
      rw [List.getElem?_cons_zero] at hj
      have hsn : sn = valuesOf s.cells := (Option.some.inj hj).symm
      rw [hsn, valuesOf_length]
      exact Nat.le.refl
    | succ j =>
      rw [List.getElem?_cons_succ] at hj
      exact hi.snap_le hj
  · intro j b sn hj hb
    cases j with
    | zero =>
      rw [List.getElem?_cons_zero] at hj
      have hsn : sn = valuesOf s.cells := (Option.some.inj hj).symm
      have hbl : b = s.trail.length := by
        have : (s.push).limit[0]? = some s.trail.length := List.getElem?_cons_zero
        exact (Option.some.inj ((this.symm).trans hb)).symm
      rw [hsn, hbl]
      show (valuesOf (List.foldl execEntry s.cells
          (s.trail.take (s.trail.length - s.trail.length)))).take (valuesOf s.cells).length
        = valuesOf s.cells
      rw [Nat.sub_self, List.take_zero, List.foldl_nil, List.take_length]
    | succ j =>
      rw [List.getElem?_cons_succ] at hj
      have hb2 : (s.trail.length :: s.limit)[j + 1]? = some b := hb
      rw [List.getElem?_cons_succ] at hb2
      exact hi.restore hj hb2
  · intro j b i sn c hj hb hlt hc hck
    have h1 := hw.cells_clock c (List.getElem?_mem hc)
    rw [Trail.push_clock] at hck
    exact absurd hck (by omega)

/-- Creating a new cell touches neither the log nor the boundaries, and existing
snapshots ignore the appended slot. -/
theorem snapinv_newCell {s : Trail α} {snaps : List (List α)} (hi : SnapInv s snaps)
    (he : EV s) (v : α) : SnapInv (Reversible.new s v).1 snaps := by
  refine ⟨hi.len_eq, ?_, ?_, ?_⟩
  · intro j sn hj
    have h1 := hi.snap_le hj
    show sn.length ≤ (s.cells ++ [(⟨s.clock, v⟩ : Reversible α)]).length
    rw [List.length_append]
    exact Nat.le_trans h1 (by omega)
  · intro j b sn hj hb
    have hold := hi.restore hj hb
    have hseg : ∀ e ∈ s.trail.take (s.trail.length - b), e.1 < (valuesOf s.cells).length := by
      intro e hm
      rw [valuesOf_length]
      exact he e ((s.trail.take_subset _) hm)
    show (valuesOf (List.foldl execEntry (s.cells ++ [(⟨s.clock, v⟩ : Reversible α)])
        (s.trail.take (s.trail.length - b)))).take sn.length = sn
    rw [valuesOf_foldl_execEntry] at hold ⊢
    rw [show valuesOf (s.cells ++ [(⟨s.clock, v⟩ : Reversible α)]) = valuesOf s.cells ++ [v]
      from by rw [valuesOf, List.map_append]; rfl]
    rw [applyValues_append_slots _ _ _ hseg, List.take_append_of_le_length]
    · exact hold
    · rw [applyValues_length, valuesOf_length]
      exact hi.snap_le hj
  · intro j b i sn c hj hb hlt hc hck
    have hilt : i < s.cells.length := Nat.lt_of_lt_of_le hlt (hi.snap_le hj)
    have hc2 : (s.cells ++ [(⟨s.clock, v⟩ : Reversible α)])[i]? = some c := hc
    rw [List.getElem?_append_left hilt] at hc2
    exact hi.clockreg hj hb hlt hc2 hck

/-- A `set_value` keeps the snapshot invariant: a redundant write changes nothing; a
registering write pushes the entry that undoes it; a non-registering value change is
already covered by the pending entry that the current clock stamp guarantees. -/
theorem snapinv_setValue {s : Trail α} {snaps : List (List α)} (hi : SnapInv s snaps)
    (hw : WF s) (i : Nat) (v : α) : SnapInv (Reversible.set_value s i v).1 snaps := by
  cases h : s.cells[i]? with
  | none => rw [Reversible.set_value_oob h]; exact hi
  | some c =>
    have hilt : i < s.cells.length := (List.getElem?_eq_some_iff.mp h).1
    by_cases hv : v = c.value
    · rw [Reversible.set_value_skip h hv]; exact hi
    · by_cases hcl : s.clock = c.clock
      · rw [Reversible.set_value_noreg h hv hcl]
        refine ⟨hi.len_eq, ?_, ?_, ?_⟩
        · intro j sn hj
          have h1 := hi.snap_le hj
          show sn.length ≤ (s.cells.set i { c with value := v }).length
          rw [List.length_set]
          exact h1
        · intro j b sn hj hb
          have hold := hi.restore hj hb
          show (valuesOf (List.foldl execEntry (s.cells.set i { c with value := v })
              (s.trail.take (s.trail.length - b)))).take sn.length = sn
          rw [valuesOf_foldl_execEntry] at hold ⊢
          have hvs : valuesOf (s.cells.set i { c with value := v })
              = (valuesOf s.cells).set i v := by
            rw [valuesOf, List.map_set]
            rfl
          rw [hvs]
          by_cases hin : i < sn.length
          · rcases hi.clockreg hj hb hin h hcl.symm with ⟨w, hm⟩
            rw [applyValues_congr_entry (s.trail.take (s.trail.length - b)) (valuesOf s.cells)
              ((valuesOf s.cells).set i v) i w (List.length_set ..)
              (fun k hk => List.getElem?_set_ne (fun hh => hk hh.symm)) hm]
            exact hold
          · have hcong := applyValues_congr_ne (s.trail.take (s.trail.length - b))
              (valuesOf s.cells) ((valuesOf s.cells).set i v) i (List.length_set ..)
              (fun k hk => List.getElem?_set_ne (fun hh => hk hh.symm))
            rw [take_eq_take_of_getElem? (fun k hk => hcong.2 k (by omega))]
            exact hold
        · intro j b i' sn c' hj hb hlt hc hck
          by_cases hii : i' = i
          · rcases hi.clockreg hj hb (by rw [← hii]; exact hlt) h hcl.symm with ⟨w, hm⟩
            exact ⟨w, by rw [hii]; exact hm⟩
          · have h3 : (s.cells.set i { c with value := v })[i']? = s.cells[i']? :=
              List.getElem?_set_ne (fun hh => hii hh.symm)
            have hc2 : s.cells[i']? = some c' := by rw [← h3]; exact hc
            exact hi.clockreg hj hb hlt hc2 hck
      · rw [Reversible.set_value_reg h hv hcl]
        refine ⟨hi.len_eq, ?_, ?_, ?_⟩
        · intro j sn hj
          have h1 := hi.snap_le hj
          show sn.length ≤ (s.cells.set i ⟨s.clock, v⟩).length
          rw [List.length_set]
          exact h1
        · intro j b sn hj hb
          have hold := hi.restore hj hb
          have hble : b ≤ s.trail.length := hw.le_len b (List.getElem?_mem hb)
          have hlen1 : ((i, c.value) :: s.trail).length - b = (s.trail.length - b) + 1 := by
            rw [List.length_cons]; omega
          show (valuesOf (List.foldl execEntry (s.cells.set i ⟨s.clock, v⟩)
              (((i, c.value) :: s.trail).take (((i, c.value) :: s.trail).length - b)))).take
              sn.length = sn
          rw [hlen1, List.take_succ_cons]
          rw [valuesOf_foldl_execEntry] at hold ⊢
          rw [applyValues_cons]
          have hv1 : valuesOf (s.cells.set i ⟨s.clock, v⟩) = (valuesOf s.cells).set i v := by
            rw [valuesOf, List.map_set]
            rfl
          have hv2 : (((valuesOf s.cells).set i v).set (i, c.value).1 (i, c.value).2)
              = valuesOf s.cells := by
            show ((valuesOf s.cells).set i v).set i c.value = valuesOf s.cells
            rw [List.set_set]
            apply set_self_of_getElem?
            rw [valuesOf_getElem?, h]
            rfl
          rw [hv1, hv2]
          exact hold
        · intro j b i' sn c' hj hb hlt hc hck
          have hble : b ≤ s.trail.length := hw.le_len b (List.getElem?_mem hb)
          have hlen1 : ((i, c.value) :: s.trail).length - b = (s.trail.length - b) + 1 := by
            rw [List.length_cons]; omega
          show ∃ v', (i', v')
            ∈ ((i, c.value) :: s.trail).take (((i, c.value) :: s.trail).length - b)
          rw [hlen1, List.take_succ_cons]
          by_cases hii : i' = i
          · exact ⟨c.value, by rw [hii]; exact List.mem_cons_self ..⟩
          · have h3 : (s.cells.set i ⟨s.clock, v⟩)[i']? = s.cells[i']? :=
              List.getElem?_set_ne (fun hh => hii hh.symm)
            have hc2 : s.cells[i']? = some c' := by rw [← h3]; exact hc
            rcases hi.clockreg hj hb hlt hc2 hck with ⟨w, hm⟩
            exact ⟨w, List.mem_cons_of_mem _ hm⟩

/-- `pop()` discards the newest snapshot and keeps the invariant for the remaining
checkpoints: unwinding to a deeper boundary factors through the boundary just
popped. -/
theorem snapinv_pop {s : Trail α} {snaps : List (List α)} (hi : SnapInv s snaps)
    (hw : WF s) : SnapInv s.pop snaps.tail := by
  cases hl : s.limit with
  | nil =>
    have hsn : snaps = [] := by
      have h1 := hi.len_eq
      rw [hl] at h1
      exact List.length_eq_zero.mp h1
    subst hsn
    refine ⟨?_, ?_, ?_, ?_⟩
    · rw [Trail.pop_limit, hl]
      rfl
    · intro j sn hj
      rw [List.getElem?_eq_none (by simp : (([] : List (List α)).tail).length ≤ j)] at hj
      cases hj
    · intro j b sn hj hb
      rw [List.getElem?_eq_none (by simp : (([] : List (List α)).tail).length ≤ j)] at hj
      cases hj
    · intro j b i sn c hj hb
      rw [List.getElem?_eq_none (by simp : (([] : List (List α)).tail).length ≤ j)] at hj
      cases hj
  | cons b₀ rest =>
    obtain ⟨sn₀, srest, rfl⟩ : ∃ sn₀ srest, snaps = sn₀ :: srest := by
      cases snaps with
      | nil =>
        exfalso
        have h1 := hi.len_eq
        rw [hl] at h1
        cases h1
      | cons a l => exact ⟨a, l, rfl⟩
    have hb0 : s.limit.headD 0 = b₀ := by rw [hl]; rfl
    have hble : b₀ ≤ s.trail.length := hw.le_len b₀ (by rw [hl]; exact List.mem_cons_self ..)
    have hhead : s.limit.headD 0 ≤ s.trail.length := hw.headD_le
    have htr := s.pop_trail_eq hhead
    have hcel := s.pop_cells_eq hhead
    have htlen : (s.pop).trail.length = b₀ := by
      rw [htr, List.length_drop, hb0]
      omega
    have hlen2 : srest.length = rest.length := by
      have h1 := hi.len_eq
      rw [hl, List.length_cons, List.length_cons] at h1
      omega
    refine ⟨?_, ?_, ?_, ?_⟩
    · rw [Trail.pop_limit, hl, List.tail_cons]
      exact hlen2
    · intro j sn hj
      have hj2 : (sn₀ :: srest)[j + 1]? = some sn := by
        rw [List.getElem?_cons_succ]
        exact hj
      have h1 := hi.snap_le hj2
      rw [hcel, length_foldl_execEntry]
      exact h1
    · intro j b sn hj hb
      have hj2 : (sn₀ :: srest)[j + 1]? = some sn := by
        rw [List.getElem?_cons_succ]
        exact hj
      have hbr : rest[j]? = some b := by
        have h2 := hb
        rw [Trail.pop_limit, hl, List.tail_cons] at h2
        exact h2
      have hb3 : s.limit[j + 1]? = some b := by
        rw [hl, List.getElem?_cons_succ]
        exact hbr
      have hold := hi.restore hj2 hb3
      have hbb0 : b ≤ b₀ := by
        have hp := hw.sorted
        rw [hl] at hp
        exact (List.pairwise_cons.mp hp).1 b (List.getElem?_mem hbr)
      rw [htlen, htr, hcel, ← List.foldl_append]
      have hsplit : s.trail.take (s.trail.length - b)
          = s.trail.take (s.trail.length - b₀)
            ++ (s.trail.drop (s.trail.length - b₀)).take
                ((s.trail.length - b) - (s.trail.length - b₀)) :=
        take_split s.trail (by omega)
      have harith : (s.trail.length - b) - (s.trail.length - b₀) = b₀ - b := by omega
      rw [harith] at hsplit
      rw [hb0, ← hsplit]
      exact hold
    · intro j b i sn c hj hb hlt hc hck
      rw [hcel] at hc
      rcases foldl_execEntry_clock_getElem? hc with ⟨c₀, hc₀, he⟩
      have h1 := hw.cells_clock c₀ (List.getElem?_mem hc₀)
      have hck2 : c.clock = s.clock + 1 := by rw [hck, Trail.pop_clock]
      exact absurd hck2 (by omega)

/-- The `while` loop of `pop_until` preserves the invariant, dropping one snapshot
per executed `pop`. -/
theorem snapinv_pop_until {s : Trail α} {snaps : List (List α)} (hi : SnapInv s snaps)
    (hw : WF s) (l : Nat) :
    SnapInv (s.pop_until l) (snaps.drop (s.level - l)) := by
  rw [Trail.pop_until]
  by_cases hc : s.level > l
  · rw [if_pos hc]
    have h1 := snapinv_pop_until (snapinv_pop hi hw) (wf_pop hw) l
    have h2 : snaps.tail.drop ((s.pop).level - l) = snaps.drop (s.level - l) := by
      rw [Trail.pop_level, ← List.drop_one, List.drop_drop]
      congr 1
      omega
    rw [← h2]
    exact h1
  · rw [if_neg hc]
    have h0 : s.level - l = 0 := by omega
    rw [h0, List.drop_zero]
    exact hi
termination_by s.level
decreasing_by
  have h : (Trail.pop s).limit = s.limit.tail := rfl
  simp only [Trail.level, h, List.length_tail] at *
  omega

theorem ev_popIter {s : Trail α} (he : EV s) (hw : WF s) (n : Nat) : EV (s.popIter n) := by
  induction n generalizing s with
  | zero => exact he
  | succ n ih => exact ih (ev_pop he hw) (wf_pop hw)

/-- Every ghost-reachable state satisfies entry validity and the snapshot
invariant. -/
theorem greach_snapinv {s : Trail α} {snaps : List (List α)} (hg : GReach s snaps) :
    EV s ∧ SnapInv s snaps := by
  induction hg with
  | init => exact ⟨ev_new, snapinv_new⟩
  | push hg ih =>
    have hw := reachable_wf (greach_reachable hg)
    exact ⟨ev_push ih.1, snapinv_push ih.2 hw⟩
  | pop hg ih =>
    have hw := reachable_wf (greach_reachable hg)
    exact ⟨ev_pop ih.1 hw, snapinv_pop ih.2 hw⟩
  | popUntil l hg ih =>
    have hw := reachable_wf (greach_reachable hg)
    refine ⟨?_, snapinv_pop_until ih.2 hw l⟩
    rw [Trail.pop_until_eq_iter]
    exact ev_popIter ih.1 hw _
  | popAll hg ih =>
    have hw := reachable_wf (greach_reachable hg)
    constructor
    · rw [Trail.pop_all, Trail.pop_until_eq_iter]
      exact ev_popIter ih.1 hw _
    · have h1 := snapinv_pop_until ih.2 hw 0
      rw [Nat.sub_zero] at h1
      exact h1
  | newCell v hg ih => exact ⟨ev_newCell ih.1 v, snapinv_newCell ih.2 ih.1 v⟩
  | setValue i v hg ih =>
    have hw := reachable_wf (greach_reachable hg)
    exact ⟨ev_setValue ih.1 i v, snapinv_setValue ih.2 hw i v⟩

/-- A single `pop()` restores every cell that existed when the newest checkpoint was
opened to its snapshot value. -/
theorem pop_restores_snapshot {s : Trail α} {sn : List α} {srest : List (List α)}
    (hw : WF s) (hi : SnapInv s (sn :: srest)) :
    (valuesOf (s.pop).cells).take sn.length = sn := by
  cases hl : s.limit with
  | nil =>
    exfalso
    have h1 := hi.len_eq
    rw [hl] at h1
    cases h1
  | cons b₀ rest =>
    have hb0 : s.limit.headD 0 = b₀ := by rw [hl]; rfl
    have hble : s.limit.headD 0 ≤ s.trail.length := hw.headD_le
    rw [s.pop_cells_eq hble]
    have hj : (sn :: srest)[0]? = some sn := List.getElem?_cons_zero
    have hb : s.limit[0]? = some b₀ := by
      rw [hl]
      exact List.getElem?_cons_zero
    have hold := hi.restore hj hb
    rw [hb0]
    exact hold

/-! ## Claims C5 (multi-cell independence) and C4 (full unwind) -/

theorem Reversible.set_value_state_limit (s : Trail α) (i : Nat) (v : α) :
    (Reversible.set_value s i v).1.limit = s.limit
      ∧ (Reversible.set_value s i v).1.cells.length = s.cells.length := by
  cases h : s.cells[i]? with
  | none => rw [Reversible.set_value_oob h]; exact ⟨rfl, rfl⟩
  | some c =>
    by_cases hv : v = c.value
    · rw [Reversible.set_value_skip h hv]; exact ⟨rfl, rfl⟩
    · by_cases hcl : s.clock = c.clock
      · rw [Reversible.set_value_noreg h hv hcl]
        exact ⟨rfl, List.length_set ..⟩
      · rw [Reversible.set_value_reg h hv hcl]
        exact ⟨rfl, List.length_set ..⟩

theorem greach_run_setValues {s : Trail α} {snaps : List (List α)} (hg : GReach s snaps)
    (ops : List (Op α)) (hops : ∀ op ∈ ops, ∃ k v, op = Op.setValue k v) :
    GReach (run s ops) snaps := by
  induction ops generalizing s with
  | nil => exact hg
  | cons op rest ih =>
    rcases hops op (List.mem_cons_self ..) with ⟨k, v, rfl⟩
    exact ih (hg.setValue k v) (fun o ho => hops o (List.mem_cons_of_mem _ ho))

theorem run_setValues_limit (s : Trail α) (ops : List (Op α))
    (hops : ∀ op ∈ ops, ∃ k v, op = Op.setValue k v) : (run s ops).limit = s.limit := by
  induction ops generalizing s with
  | nil => rfl
  | cons op rest ih =>
    rcases hops op (List.mem_cons_self ..) with ⟨k, v, rfl⟩
    have h1 := ih (Reversible.set_value s k v).1 (fun o ho => hops o (List.mem_cons_of_mem _ ho))
    have h2 := (Reversible.set_value_state_limit s k v).1
    show (run (Reversible.set_value s k v).1 rest).limit = s.limit
    rw [h1, h2]

/-- C5: two cells bound to the same trail, mutated through `set_value` in any
interleaving while one checkpoint is open: a single `pop()` restores each of them to
its own pre-checkpoint value, regardless of the order in which their restore actions
were registered, and returns `level()` to its pre-push value. -/
theorem claim_C5_multi_cell_independence (s : Trail α) (snaps : List (List α))
    (hg : GReach s snaps) (i j : Nat) (ci cj : Reversible α)
    (hci : s.cells[i]? = some ci) (hcj : s.cells[j]? = some cj)
    (ops : List (Op α))
    (hops : ∀ op ∈ ops, (∃ v, op = Op.setValue i v) ∨ (∃ v, op = Op.setValue j v)) :
    Reversible.get_value ((run s.push ops).pop) i = Reversible.get_value s i ∧
      Reversible.get_value ((run s.push ops).pop) j = Reversible.get_value s j ∧
      ((run s.push ops).pop).level = s.level := by
  have hops2 : ∀ op ∈ ops, ∃ k v, op = Op.setValue k v := by
    intro op ho
    rcases hops op ho with ⟨v, rfl⟩ | ⟨v, rfl⟩
    · exact ⟨i, v, rfl⟩
    · exact ⟨j, v, rfl⟩
  have hg2 : GReach (run s.push ops) (valuesOf s.cells :: snaps) :=
    greach_run_setValues hg.push ops hops2
  have hgood := greach_snapinv hg2
  have hw2 := reachable_wf (greach_reachable hg2)
  have hrest := pop_restores_snapshot hw2 hgood.2
  have hget : ∀ k, k < s.cells.length →
      Reversible.get_value ((run s.push ops).pop) k = Reversible.get_value s k := by
    intro k hk
    have hk2 : k < (valuesOf s.cells).length := by rw [valuesOf_length]; exact hk
    have h1 : (valuesOf ((run s.push ops).pop).cells)[k]? = (valuesOf s.cells)[k]? := by
      rw [← List.getElem?_take_of_lt hk2, hrest]
    rw [Reversible.get_value, Reversible.get_value, ← valuesOf_getElem?, ← valuesOf_getElem?]
    exact h1
  refine ⟨hget i (List.getElem?_eq_some_iff.mp hci).1, hget j (List.getElem?_eq_some_iff.mp hcj).1, ?_⟩
  rw [Trail.pop_level, Trail.level, run_setValues_limit s.push ops hops2, Trail.push_limit,
    List.length_cons]
  show s.limit.length + 1 - 1 = s.level
  rw [Nat.add_sub_cancel]
  rfl

theorem claim_C5_multi_cell_independence_witness :
    ((Reversible.new (Reversible.new (Trail.new : Trail Nat) 1).1 2).1).cells[0]? = some ⟨0, 1⟩ ∧
      ((Reversible.new (Reversible.new (Trail.new : Trail Nat) 1).1 2).1).cells[1]? = some ⟨0, 2⟩ ∧
      Reversible.get_value ((run ((Reversible.new (Reversible.new
          (Trail.new : Trail Nat) 1).1 2).1).push
          [Op.setValue 0 5, Op.setValue 1 6, Op.setValue 0 7]).pop) 0
        = Reversible.get_value ((Reversible.new (Reversible.new (Trail.new : Trail Nat) 1).1 2).1) 0 ∧
      Reversible.get_value ((run ((Reversible.new (Reversible.new
          (Trail.new : Trail Nat) 1).1 2).1).push
          [Op.setValue 0 5, Op.setValue 1 6, Op.setValue 0 7]).pop) 1
        = Reversible.get_value ((Reversible.new (Reversible.new (Trail.new : Trail Nat) 1).1 2).1) 1 := by
  have h := claim_C5_multi_cell_independence
    (Reversible.new (Reversible.new (Trail.new : Trail Nat) 1).1 2).1 []
    (GReach.newCell 2 (GReach.newCell 1 GReach.init)) 0 1 ⟨0, 1⟩ ⟨0, 2⟩
    (by decide) (by decide) [Op.setValue 0 5, Op.setValue 1 6, Op.setValue 0 7]
    (by
      intro op ho
      rcases List.mem_cons.mp ho with h1 | h2
      · exact Or.inl ⟨5, h1⟩
      · rcases List.mem_cons.mp h2 with h3 | h4
        · exact Or.inr ⟨6, h3⟩
        · rcases List.mem_cons.mp h4 with h5 | h6
          · exact Or.inl ⟨7, h5⟩
          · cases h6)
  exact ⟨by decide, by decide, h.1, h.2.1⟩

theorem Trail.popIter_level (s : Trail α) (n : Nat) : (s.popIter n).level = s.level - n := by
  induction n generalizing s with
  | zero => rw [Nat.sub_zero]; rfl
  | succ n ih =>
    show ((s.pop).popIter n).level = s.level - (n + 1)
    rw [ih, Trail.pop_level]
    omega

theorem Trail.pop_all_level (s : Trail α) : (s.pop_all).level = 0 := by
  rw [Trail.pop_all, Trail.pop_until_eq_iter, Trail.popIter_level]
  omega

theorem pop_all_restores_bottom : ∀ (n : Nat) (s : Trail α) (snaps : List (List α)),
    s.level = n → GReach s snaps → ∀ sb, snaps.getLast? = some sb →
    ∀ k, k < sb.length → Reversible.get_value s.pop_all k = sb[k]? := by
  intro n
  induction n with
  | zero =>
    intro s snaps hlev hg sb hlast k hk
    have hinv := (greach_snapinv hg).2
    have hsn : snaps = [] := by
      apply List.length_eq_zero.mp
      rw [hinv.len_eq]
      exact hlev
    rw [hsn] at hlast
    cases hlast
  | succ n ih =>
    intro s snaps hlev hg sb hlast k hk
    have hinv := (greach_snapinv hg).2
    have hw := reachable_wf (greach_reachable hg)
    obtain ⟨sn₀, srest, rfl⟩ : ∃ sn₀ srest, snaps = sn₀ :: srest := by
      cases snaps with
      | nil =>
        exfalso
        have h1 := hinv.len_eq
        have h2 : s.limit.length = n + 1 := hlev
        rw [h2] at h1
        cases h1
      | cons a l => exact ⟨a, l, rfl⟩
    have hga : GReach s.pop srest := hg.pop
    have hplev : (s.pop).level = n := by
      rw [Trail.pop_level, hlev]
      omega
    have hstep : s.pop_all = (s.pop).pop_all := by
      rw [Trail.pop_all, Trail.pop_all]
      conv_lhs => rw [Trail.pop_until]
      rw [if_pos (by rw [hlev]; omega)]
    cases srest with
    | nil =>
      have hsb : sb = sn₀ := by
        rw [show (sn₀ :: ([] : List (List α))).getLast? = some sn₀ from rfl] at hlast
        exact (Option.some.inj hlast).symm
      have hlev1 : s.level = 1 := by
        have h1 := hinv.len_eq
        have h2 : s.level = s.limit.length := rfl
        rw [h2, ← h1]
        rfl
      have hn0 : (s.pop).level = 0 := by rw [Trail.pop_level, hlev1]
      have hpa : (s.pop).pop_all = s.pop := by
        rw [Trail.pop_all, Trail.pop_until, if_neg (by rw [hn0]; omega)]
      rw [hsb] at hk
      rw [hstep, hpa, hsb]
      have hrest := pop_restores_snapshot hw hinv
      rw [Reversible.get_value, ← valuesOf_getElem?]
      rw [← List.getElem?_take_of_lt hk, hrest]
    | cons s1 srest2 =>
      have hlast2 : (s1 :: srest2).getLast? = some sb := by
        rw [List.getLast?_cons_cons] at hlast
        exact hlast
      rw [hstep]
      exact ih s.pop (s1 :: srest2) hplev hga sb hlast2 k hk

/-- C4: `pop_all()` is the very call `pop_until(0)`, it always lands at
`level() == 0`, and from any nesting depth it restores every cell that was bound to
the trail when the bottom-most open checkpoint was opened (the ghost snapshot
`snaps.getLast?`, i.e. the values held at level 0) to exactly that value. -/
theorem claim_C4_full_unwind (s : Trail α) (snaps : List (List α)) (hg : GReach s snaps) :
    s.pop_all = s.pop_until 0 ∧ (s.pop_all).level = 0 ∧
      ∀ sb, snaps.getLast? = some sb → ∀ k, k < sb.length →
        Reversible.get_value s.pop_all k = sb[k]? := by
  refine ⟨rfl, Trail.pop_all_level s, ?_⟩
  intro sb hlast k hk
  exact pop_all_restores_bottom s.level s snaps rfl hg sb hlast k hk

theorem claim_C4_full_unwind_witness :
    Reversible.get_value
        ((Reversible.set_value (Reversible.new (Trail.new : Trail Nat) 5).1.push 0 9).1.pop_all) 0
      = some 5 := by
  have h := claim_C4_full_unwind
    (Reversible.set_value (Reversible.new (Trail.new : Trail Nat) 5).1.push 0 9).1
    [valuesOf (Reversible.new (Trail.new : Trail Nat) 5).1.cells]
    (GReach.setValue 0 9 (GReach.push (GReach.newCell 5 GReach.init)))
  have h2 := h.2.2 (valuesOf (Reversible.new (Trail.new : Trail Nat) 5).1.cells) rfl 0 (by decide)
  rw [h2]
  decide
